import Mathlib

/-!
Shallow embedding of `scripts/trainer.py` (color-classifier trainer):
hex weight export, input-log parsing, normalization, one-hot encoding,
the MLP forward/backward passes, and the early-stopping training loop.
Machine floats on the arithmetic path are modelled by exact rationals
(reals where `exp` is needed); float32 *bit patterns* on the export path
are modelled exactly as natural numbers below 2^32.
-/

namespace Trainer

/-! ## Hex rendering (`float_to_hex`, trainer.py lines 103-104)

`float_to_hex(f)` packs `f` as a little-endian float32, reinterprets the
four bytes as an unsigned 32-bit integer `n`, and returns Python's
`hex(n)`: the string `"0x"` followed by the minimal (unpadded) lowercase
hexadecimal digits of `n`.  We model the bit pattern `n : Nat` directly. -/

/-- Lowercase hexadecimal digit character for `n < 16`, as Python's `hex`. -/
def hexDigitChar (n : Nat) : Char :=
  if n < 10 then Char.ofNat (48 + n) else Char.ofNat (87 + n)

/-- Minimal (unpadded) lowercase hex digits of `n`, most significant first:
`hexDigits 0 = ['0']`, exactly the digit string of Python's `hex(n)`. -/
def hexDigits (n : Nat) : List Char :=
  if h : n < 16 then [hexDigitChar n]
  else hexDigits (n / 16) ++ [hexDigitChar (n % 16)]
decreasing_by exact Nat.div_lt_self (by omega) (by omega)

/-- `float_to_hex` on the 32-bit pattern: Python's `hex(n)` string. -/
def float_to_hex (n : Nat) : String :=
  "0x" ++ String.mk (hexDigits n)

/-- Numeric value of a hex digit character (both cases), `none` otherwise. -/
def hexCharVal (c : Char) : Option Nat :=
  if 48 ≤ c.toNat ∧ c.toNat ≤ 57 then some (c.toNat - 48)
  else if 97 ≤ c.toNat ∧ c.toNat ≤ 102 then some (c.toNat - 87)
  else if 65 ≤ c.toNat ∧ c.toNat ≤ 70 then some (c.toNat - 55)
  else none

/-- Left-to-right hex digit accumulator: `parseHexAux a ds` extends the
already-read value `a` with the digits `ds`. -/
def parseHexAux : Nat → List Char → Option Nat
  | a, [] => some a
  | a, c :: cs =>
    match hexCharVal c with
    | some d => parseHexAux (16 * a + d) cs
    | none => none

/-- Decode a `0x`-prefixed hex literal back to its 32-bit pattern. -/
def hexDecode (s : String) : Option Nat :=
  match s.toList with
  | '0' :: 'x' :: ds => if ds = [] then none else parseHexAux 0 ds
  | _ => none

/-! ## IEEE-754 single-precision bit patterns

`struct.pack('<f', f)` encodes the float32 value `f`; a float32 datum is a
sign bit, an 8-bit exponent field and a 23-bit mantissa field.  `packBits`
assembles the 32-bit pattern and `float32val` gives the exact real value
the datum denotes (finite data only: exponent field below 255). -/

/-- Assemble the 32-bit pattern from sign, exponent field and mantissa field. -/
def packBits (s : Bool) (e m : Nat) : Nat :=
  (if s then 2 ^ 31 else 0) + e * 2 ^ 23 + m

/-- Exact rational value denoted by a finite float32 datum:
subnormal (`e = 0`) is `±m·2^(1-127)/2^23`, normal is `±(1+m/2^23)·2^(e-127)`. -/
def float32val (s : Bool) (e m : Nat) : ℚ :=
  (if s then -1 else 1) *
    (if e = 0 then (m : ℚ) / 2 ^ 23 * (2 : ℚ) ^ (1 - 127 : ℤ)
     else (1 + (m : ℚ) / 2 ^ 23) * (2 : ℚ) ^ ((e : ℤ) - 127))

/-! ## Input parsing (`parse_input`, trainer.py lines 80-90)

Each line is scanned with
`re.search(r'Red: (\d+), Green: (\d+), Blue: (\d+), Clear: (\d+), Color: (\w+)', line)`.
For this pattern a greedy `(\d+)` is always followed by a literal comma
(not a digit) and the final `(\w+)` ends the pattern, so the regex match
is exactly maximal-munch: `matchSampleAt` matches the pattern at the head
of a character list, and `searchSample` scans for the leftmost match as
`re.search` does.  `\d` and `\w` are modelled by their ASCII classes. -/

/-- One matched sample: four integer channel readings and a color word. -/
structure RawSample where
  red : Nat
  green : Nat
  blue : Nat
  clear : Nat
  color : List Char
deriving DecidableEq, Repr

/-- ASCII word character, the `\w` class: letter, digit or underscore. -/
def isWordChar (c : Char) : Bool := c.isAlphanum || c = '_'

/-- Decimal value of a digit string, as Python's `int`. -/
def decimalVal (ds : List Char) : Nat :=
  ds.foldl (fun a c => 10 * a + (c.toNat - 48)) 0

/-- Greedy `(\d+)`: the maximal nonempty digit prefix as a number, plus the rest. -/
def takeDigits (s : List Char) : Option (Nat × List Char) :=
  match s.takeWhile Char.isDigit with
  | [] => none
  | ds => some (decimalVal ds, s.dropWhile Char.isDigit)

/-- Greedy final `(\w+)`: the maximal nonempty word-character prefix, plus the rest. -/
def takeWord (s : List Char) : Option (List Char × List Char) :=
  match s.takeWhile isWordChar with
  | [] => none
  | ws => some (ws, s.dropWhile isWordChar)

/-- Consume an exact literal from the head of the input. -/
def dropLit : List Char → List Char → Option (List Char)
  | [], s => some s
  | _ :: _, [] => none
  | c :: cs, x :: xs => if x = c then dropLit cs xs else none

def litRed : List Char := "Red: ".toList
def litGreen : List Char := ", Green: ".toList
def litBlue : List Char := ", Blue: ".toList
def litClear : List Char := ", Clear: ".toList
def litColor : List Char := ", Color: ".toList

/-- Match the sample pattern at the head of `s` (trailing text is ignored). -/
def matchSampleAt (s : List Char) : Option RawSample := do
  let s1 ← dropLit litRed s
  let (r, s2) ← takeDigits s1
  let s3 ← dropLit litGreen s2
  let (g, s4) ← takeDigits s3
  let s5 ← dropLit litBlue s4
  let (b, s6) ← takeDigits s5
  let s7 ← dropLit litClear s6
  let (c, s8) ← takeDigits s7
  let s9 ← dropLit litColor s8
  let (w, _) ← takeWord s9
  pure ⟨r, g, b, c, w⟩

/-- `re.search`: try the pattern at each position, leftmost match wins. -/
def searchSample : List Char → Option RawSample
  | [] => matchSampleAt []
  | c :: t =>
    match matchSampleAt (c :: t) with
    | some r => some r
    | none => searchSample t

/-- `parse_input` over the file's lines: parallel feature rows and labels,
one entry per line with a match, non-matching lines skipped. -/
def parse_input : List (List Char) → List (List Nat) × List (List Char)
  | [] => ([], [])
  | l :: ls =>
    let rest := parse_input ls
    match searchSample l with
    | some r => ([r.red, r.green, r.blue, r.clear] :: rest.1, r.color :: rest.2)
    | none => rest

/-! ## Normalization and one-hot encoding (trainer.py lines 92-101) -/

/-- `normalize_data`: elementwise division of a feature row by
`np.array([2048, 2048, 2048, 2048])`.  Exact rational model of the
floating-point division. -/
def normalize_data (row : List ℚ) : List ℚ :=
  List.zipWith (fun x d => x / d) row [2048, 2048, 2048, 2048]

/-- The fixed label vocabulary, in source order. -/
def unique_labels : List String := ["Red", "Black", "Green", "White"]

/-- `label_dict`: index of a label in the vocabulary; `none` models the
`KeyError` Python raises on an unknown key. -/
def label_dict (l : String) : Option Nat := unique_labels.indexOf? l

/-- Row `i` of the one-hot matrix: zeros with a single 1 at column `i`. -/
def oneHotRow (i : Nat) : List ℚ :=
  (List.range unique_labels.length).map (fun j => if j = i then 1 else 0)

/-- `one_hot_encode`: one one-hot row per label; an unknown label raises
`KeyError`, so the whole encoding fails and no partial dataset is produced. -/
def one_hot_encode : List String → Option (List (List ℚ))
  | [] => some []
  | l :: ls =>
    match label_dict l with
    | none => none
    | some i =>
      match one_hot_encode ls with
      | none => none
      | some rest => some (oneHotRow i :: rest)

/-! ## Matrices

numpy 2-d arrays are modelled by an explicit row/column count and a total
entry function; all operations below record how each numpy expression in
the source computes its entries.  `addRow` is numpy's broadcast of a
`1 × n` bias row over a batch. -/

structure Mat (α : Type) where
  rows : Nat
  cols : Nat
  entry : Nat → Nat → α

section MatOps

variable {α : Type} [LinearOrderedField α]

/-- `np.dot`. -/
def matMul (A B : Mat α) : Mat α :=
  ⟨A.rows, B.cols, fun i j => ∑ k in Finset.range A.cols, A.entry i k * B.entry k j⟩

/-- `.T`. -/
def transposeM (A : Mat α) : Mat α := ⟨A.cols, A.rows, fun i j => A.entry j i⟩

/-- Elementwise `+` of same-shape arrays. -/
def matAdd (A B : Mat α) : Mat α :=
  ⟨A.rows, A.cols, fun i j => A.entry i j + B.entry i j⟩

/-- Elementwise `-` of same-shape arrays. -/
def matSub (A B : Mat α) : Mat α :=
  ⟨A.rows, A.cols, fun i j => A.entry i j - B.entry i j⟩

/-- Broadcast `+` of a `1 × n` bias row over every row of `A`. -/
def addRow (A b : Mat α) : Mat α :=
  ⟨A.rows, A.cols, fun i j => A.entry i j + b.entry 0 j⟩

/-- Scalar multiple, `learning_rate * (...)`. -/
def smulM (c : α) (A : Mat α) : Mat α :=
  ⟨A.rows, A.cols, fun i j => c * A.entry i j⟩

/-- Elementwise `*` of same-shape arrays. -/
def hadamard (A B : Mat α) : Mat α :=
  ⟨A.rows, A.cols, fun i j => A.entry i j * B.entry i j⟩

/-- `relu`: `np.maximum(0, x)` elementwise. -/
def reluM (A : Mat α) : Mat α := ⟨A.rows, A.cols, fun i j => max 0 (A.entry i j)⟩

/-- `relu_derivative`: `np.where(x > 0, 1, 0)` elementwise. -/
def reluDerivM (A : Mat α) : Mat α :=
  ⟨A.rows, A.cols, fun i j => if 0 < A.entry i j then 1 else 0⟩

/-- `np.sum(..., axis=0, keepdims=True)`: the `1 × cols` column-sum row. -/
def colSum (A : Mat α) : Mat α :=
  ⟨1, A.cols, fun _ j => ∑ i in Finset.range A.rows, A.entry i j⟩

end MatOps

/-! ## The network (`NeuralNetwork`, trainer.py lines 7-51)

Weights, biases, and the per-call activation caches `hidden1`, `hidden2`,
`output` that `forward` assigns and `backward` reads. -/

structure NeuralNetwork (α : Type) where
  input_weights : Mat α
  hidden_weights1 : Mat α
  hidden_weights2 : Mat α
  hidden_bias1 : Mat α
  hidden_bias2 : Mat α
  output_bias : Mat α
  hidden1 : Mat α
  hidden2 : Mat α
  output : Mat α

/-- Row-wise maximum `np.max(x, axis=1, keepdims=True)` used by `softmax`. -/
def rowMax (A : Mat ℝ) (i : Nat) : ℝ :=
  (List.range A.cols).foldr (fun j m => max (A.entry i j) m) (A.entry i 0)

/-- `softmax` with the row-max subtraction of the source:
`exp_x = np.exp(x - np.max(x, axis=1, keepdims=True))`, then each row is
divided by its sum. -/
noncomputable def softmaxM (A : Mat ℝ) : Mat ℝ :=
  ⟨A.rows, A.cols, fun i j =>
    Real.exp (A.entry i j - rowMax A i) /
      ∑ k in Finset.range A.cols, Real.exp (A.entry i k - rowMax A i)⟩

/-- `forward`: two ReLU layers then softmax; assigns the three activation
caches on the returned network and returns the output matrix. -/
noncomputable def forward (nn : NeuralNetwork ℝ) (X : Mat ℝ) :
    NeuralNetwork ℝ × Mat ℝ :=
  let h1 := reluM (addRow (matMul X nn.input_weights) nn.hidden_bias1)
  let h2 := reluM (addRow (matMul h1 nn.hidden_weights1) nn.hidden_bias2)
  let out := softmaxM (addRow (matMul h2 nn.hidden_weights2) nn.output_bias)
  ({ nn with hidden1 := h1, hidden2 := h2, output := out }, out)

/-- `backward`: error/delta computation and the six in-place `+=` updates,
transcribed statement by statement (all deltas are computed from the
pre-update weights, as in the source). -/
def backward {α : Type} [LinearOrderedField α]
    (nn : NeuralNetwork α) (X y output : Mat α) (lr : α) : NeuralNetwork α :=
  let output_error := matSub y output
  let hidden2_error := matMul output_error (transposeM nn.hidden_weights2)
  let hidden1_error := matMul hidden2_error (transposeM nn.hidden_weights1)
  let hidden2_delta := hadamard hidden2_error (reluDerivM nn.hidden2)
  let hidden1_delta := hadamard hidden1_error (reluDerivM nn.hidden1)
  { nn with
    hidden_weights2 :=
      matAdd nn.hidden_weights2 (smulM lr (matMul (transposeM nn.hidden2) output_error))
    hidden_weights1 :=
      matAdd nn.hidden_weights1 (smulM lr (matMul (transposeM nn.hidden1) hidden2_delta))
    input_weights :=
      matAdd nn.input_weights (smulM lr (matMul (transposeM X) hidden1_delta))
    output_bias := matAdd nn.output_bias (smulM lr (colSum output_error))
    hidden_bias2 := matAdd nn.hidden_bias2 (smulM lr (colSum hidden2_delta))
    hidden_bias1 := matAdd nn.hidden_bias1 (smulM lr (colSum hidden1_delta)) }

/-! ## Early stopping (`train`, trainer.py lines 53-78)

The control flow of the epoch loop, with the per-epoch validation loss
abstracted as a sequence `v : Nat → ℚ` (each run of `train` determines
one such sequence; the loop inspects nothing else).  `best_val_loss`
starts at `float('inf')`, modelled by `none`, so any first loss improves. -/

/-- The `val_loss < best_val_loss` test, with `none` for the initial `inf`. -/
def improvedWrt (best : Option ℚ) (vl : ℚ) : Bool :=
  match best with
  | none => true
  | some b => decide (vl < b)

/-- The epoch loop: `n` epochs of budget remain, `e` is the current epoch
index, `best`/`counter` are `best_val_loss`/`patience_counter`.  Returns
the epoch at which early stopping breaks, or `none` if the budget is
exhausted first. -/
def runEpochs (v : Nat → ℚ) (patience : Nat) :
    Nat → Nat → Option ℚ → Nat → Option Nat
  | 0, _, _, _ => none
  | n + 1, e, best, counter =>
    if improvedWrt best (v e) then
      runEpochs v patience n (e + 1) (some (v e)) 0
    else if patience ≤ counter + 1 then some e
    else runEpochs v patience n (e + 1) best (counter + 1)

/-- The epoch printed by `Early stopping at epoch {epoch}`, if any. -/
def stopEpoch (v : Nat → ℚ) (epochs patience : Nat) : Option Nat :=
  runEpochs v patience epochs 0 none 0

/-- Number of epochs the loop actually executes. -/
def epochsRun (v : Nat → ℚ) (epochs patience : Nat) : Nat :=
  match stopEpoch v epochs patience with
  | some e => e + 1
  | none => epochs

/-- One update of `(best_val_loss, patience_counter)` by epoch `e`. -/
def stateStep (v : Nat → ℚ) (s : Option ℚ × Nat) (e : Nat) : Option ℚ × Nat :=
  if improvedWrt s.1 (v e) then (some (v e), 0) else (s.1, s.2 + 1)

/-- `(best_val_loss, patience_counter)` entering epoch `e`. -/
def stateAt (v : Nat → ℚ) : Nat → Option ℚ × Nat
  | 0 => (none, 0)
  | e + 1 => stateStep v (stateAt v e) e

/-! ## Weight export (trainer.py lines 119-137)

Each weight matrix is printed one brace-group per row, entries in
row-major order through `float_to_hex`; each bias row is flattened.  The
matrices here carry the float32 *bit patterns* of the trained parameters. -/

/-- The nested hex literals of a weight matrix, row by row. -/
def exportRows (M : Mat Nat) : List (List String) :=
  (List.range M.rows).map (fun i =>
    (List.range M.cols).map (fun j => float_to_hex (M.entry i j)))

/-- The flattened hex literals of a `1 × n` bias row. -/
def exportFlat (b : Mat Nat) : List String :=
  (List.range b.cols).map (fun j => float_to_hex (b.entry 0 j))

/-! ## Theorems: hex round trip (C1) -/

theorem parseHexAux_append (xs ys : List Char) (a : Nat) :
    parseHexAux a (xs ++ ys) = (parseHexAux a xs).bind (fun b => parseHexAux b ys) := by
  induction xs generalizing a with
  | nil => simp [parseHexAux]
  | cons c cs ih =>
    simp only [List.cons_append, parseHexAux]
    cases h : hexCharVal c with
    | none => simp
    | some d => simp [ih]

theorem hexCharVal_hexDigitChar : ∀ n, n < 16 → hexCharVal (hexDigitChar n) = some n := by
  decide

theorem hexDigits_ne_nil (n : Nat) : hexDigits n ≠ [] := by
  rw [hexDigits]
  split
  · simp
  · simp

theorem parseHexAux_hexDigits (n a : Nat) :
    parseHexAux a (hexDigits n) = some (a * 16 ^ (hexDigits n).length + n) := by
  induction n using Nat.strong_induction_on generalizing a with
  | _ n ih =>
    by_cases h : n < 16
    · rw [hexDigits, dif_pos h]
      simp [parseHexAux, hexCharVal_hexDigitChar n h, Nat.mul_comm]
    · rw [hexDigits, dif_neg h, parseHexAux_append,
        ih (n / 16) (Nat.div_lt_self (by omega) (by omega)) a]
      have h16 : n % 16 < 16 := Nat.mod_lt _ (by omega)
      simp only [Option.some_bind, parseHexAux, hexCharVal_hexDigitChar (n % 16) h16,
        List.length_append, List.length_cons, List.length_nil, pow_succ]
      have hdm : 16 * (n / 16) + n % 16 = n := Nat.div_add_mod n 16
      congr 1
      generalize 16 ^ (hexDigits (n / 16)).length = P
      have key : 16 * (a * P + n / 16) + n % 16 = a * (P * 16) + (16 * (n / 16) + n % 16) := by
        ring
      rw [key, hdm]

theorem toList_hexLit (l : List Char) : ("0x" ++ String.mk l).toList = '0' :: 'x' :: l := by
  simp [String.toList]

theorem hexDecode_float_to_hex (n : Nat) : hexDecode (float_to_hex n) = some n := by
  unfold float_to_hex hexDecode
  rw [toList_hexLit]
  simp only [hexDigits_ne_nil n, if_false, parseHexAux_hexDigits n 0]
  simp

theorem float32val_one_bits (s : Bool) (e m : Nat) (he : e < 255) (hm : m < 2 ^ 23)
    (hv : float32val s e m = 1) : packBits s e m = 0x3f800000 := by
  unfold float32val at hv
  cases s with
  | true =>
    exfalso
    have hX : (0 : ℚ) ≤
        (if e = 0 then (m : ℚ) / 2 ^ 23 * (2 : ℚ) ^ (1 - 127 : ℤ)
         else (1 + (m : ℚ) / 2 ^ 23) * (2 : ℚ) ^ ((e : ℤ) - 127)) := by
      split
      · positivity
      · positivity
    simp only [if_true] at hv
    linarith
  | false =>
    simp only [Bool.false_eq_true, if_false, one_mul] at hv
    by_cases h0 : e = 0
    · exfalso
      rw [if_pos h0] at hv
      have h126 : (2 : ℚ) ^ (1 - 127 : ℤ) = ((2 : ℚ) ^ (126 : ℕ))⁻¹ := by
        rw [show (1 - 127 : ℤ) = -((126 : ℕ) : ℤ) by norm_num, zpow_neg, zpow_natCast]
      rw [h126] at hv
      field_simp at hv
      have hNat : m = 2 ^ 23 * 2 ^ 126 := by exact_mod_cast hv
      have hbig : 2 ^ 23 ≤ 2 ^ 23 * 2 ^ 126 := Nat.le_mul_of_pos_right _ (by positivity)
      linarith
    · rw [if_neg h0] at hv
      have hsplit : (2 : ℚ) ^ ((e : ℤ) - 127) = (2 : ℚ) ^ (e : ℕ) / (2 : ℚ) ^ (127 : ℕ) := by
        rw [show ((e : ℤ) - 127) = (e : ℤ) - ((127 : ℕ) : ℤ) by norm_num,
          zpow_sub₀ (by norm_num : (2 : ℚ) ≠ 0), zpow_natCast, zpow_natCast]
      rw [hsplit] at hv
      field_simp at hv
      have hN : (2 ^ 23 + m) * 2 ^ e = 2 ^ 150 := by
        have hc : (2 ^ 23 + m) * 2 ^ e = 2 ^ 23 * 2 ^ 127 := by exact_mod_cast hv
        rw [hc, ← pow_add]
      have hle : e ≤ 127 := by
        have h1 : (2 : ℕ) ^ 23 * 2 ^ e ≤ 2 ^ 150 := by
          calc (2 : ℕ) ^ 23 * 2 ^ e ≤ (2 ^ 23 + m) * 2 ^ e :=
                Nat.mul_le_mul_right _ (by omega)
            _ = 2 ^ 150 := hN
        rw [← pow_add] at h1
        have := (Nat.pow_le_pow_iff_right (by omega : 1 < 2)).mp h1
        omega
      have hge : 126 < e := by
        have h2 : (2 : ℕ) ^ 150 < 2 ^ 24 * 2 ^ e := by
          calc (2 : ℕ) ^ 150 = (2 ^ 23 + m) * 2 ^ e := hN.symm
            _ < 2 ^ 24 * 2 ^ e :=
                (Nat.mul_lt_mul_right (Nat.pos_pow_of_pos e (by omega))).mpr (by omega)
        rw [← pow_add] at h2
        have := (Nat.pow_lt_pow_iff_right (by omega : 1 < 2)).mp h2
        omega
      have he127 : e = 127 := by omega
      subst he127
      have hm0 : m = 0 := by
        have h3 : (2 ^ 23 + m) * 2 ^ 127 = 2 ^ 23 * 2 ^ 127 := by
          rw [hN, ← pow_add]
        have h4 : 2 ^ 23 + m = 2 ^ 23 :=
          Nat.eq_of_mul_eq_mul_right (Nat.pos_pow_of_pos 127 (by omega)) h3
        omega
      subst hm0
      norm_num [packBits]

/-- C1: encoding any float32 bit pattern with `float_to_hex` and decoding
the hex literal back yields the identical 32-bit pattern, hence the
identical float32 value bit for bit; and any finite float32 datum whose
value is exactly 1 has the bit pattern 0x3f800000, so a parameter equal
to 1.0f encodes to 0x3f800000. -/
theorem float_to_hex_roundtrip (n : Nat) (hn : n < 2 ^ 32) (s : Bool) (e m : Nat)
    (he : e < 255) (hm : m < 2 ^ 23) (hv : float32val s e m = 1) :
    hexDecode (float_to_hex n) = some n ∧ packBits s e m = 0x3f800000 :=
  ⟨hexDecode_float_to_hex n, float32val_one_bits s e m he hm hv⟩

/-- Witness for C1 at the pattern of 1.0f. -/
theorem float_to_hex_roundtrip_witness :
    hexDecode (float_to_hex 0x3f800000) = some 0x3f800000 ∧
      packBits false 127 0 = 0x3f800000 :=
  float_to_hex_roundtrip 0x3f800000 (by norm_num) false 127 0 (by norm_num) (by norm_num)
    (by norm_num [float32val])

/-! ## Theorems: export format (C6)

Python's `hex` does not zero-pad, so a zero parameter is emitted as
`0x0`, not as an 8-digit literal. -/

theorem hexDigits_zero : hexDigits 0 = ['0'] := by
  rw [hexDigits]
  decide

/-- C6 counterexample: a bias entry whose float32 value is exactly 0 has
bit pattern 0, and the emitted literal is the 1-digit `0x0`, not an
8-hex-digit literal. -/
theorem export_zero_not_eight_digits :
    float32val false 0 0 = 0 ∧ packBits false 0 0 = 0 ∧
      exportFlat ⟨1, 1, fun _ _ => 0⟩ = [float_to_hex 0] ∧
      float_to_hex 0 = "0x0" ∧ (hexDigits 0).length = 1 ∧
      (hexDigits 0).length ≠ 8 := by
  refine ⟨by norm_num [float32val], rfl, rfl, ?_, ?_, ?_⟩
  · show "0x" ++ String.mk (hexDigits 0) = "0x0"
    rw [hexDigits_zero]
    rfl
  · simp [hexDigits_zero]
  · simp [hexDigits_zero]

theorem hexDigits_one_le_length (n : Nat) : 1 ≤ (hexDigits n).length := by
  cases h : hexDigits n with
  | nil => exact absurd h (hexDigits_ne_nil n)
  | cons a l => simp

theorem hexDigits_length_le (n k : Nat) (hk : 1 ≤ k) (h : n < 16 ^ k) :
    (hexDigits n).length ≤ k := by
  induction n using Nat.strong_induction_on generalizing k with
  | _ n ih =>
    by_cases h16 : n < 16
    · rw [hexDigits, dif_pos h16]
      simpa using hk
    · rw [hexDigits, dif_neg h16, List.length_append]
      simp only [List.length_cons, List.length_nil]
      have hk2 : 2 ≤ k := by
        rcases Nat.lt_or_ge k 2 with hlt | hge
        · interval_cases k <;> omega
        · exact hge
      have hlt : n / 16 < 16 ^ (k - 1) := by
        rw [Nat.div_lt_iff_lt_mul (by omega : 0 < 16)]
        have hek : 16 ^ (k - 1) * 16 = 16 ^ k := by
          rw [← pow_succ]
          congr 1
          omega
        omega
      have := ih (n / 16) (Nat.div_lt_self (by omega) (by omega)) (k - 1) (by omega) hlt
      omega

/-- C6 (amended): every exported entry is the hex literal of the
corresponding parameter's float32 bit pattern through `float_to_hex`,
grouped one list per matrix row in row-major order (biases flattened),
and each literal decodes back to its exact 32-bit pattern — but the
literal is Python's unpadded `hex`, with 1 to 8 hex digits for a 32-bit
pattern, not always 8. -/
theorem export_entries_hex (M : Mat Nat) (i j : Nat) (hi : i < M.rows) (hj : j < M.cols)
    (hb : M.entry i j < 2 ^ 32) :
    (exportRows M).length = M.rows ∧
      (exportRows M)[i]?.bind (fun r => r[j]?) = some (float_to_hex (M.entry i j)) ∧
      (exportFlat M)[j]? = some (float_to_hex (M.entry 0 j)) ∧
      1 ≤ (hexDigits (M.entry i j)).length ∧ (hexDigits (M.entry i j)).length ≤ 8 ∧
      hexDecode (float_to_hex (M.entry i j)) = some (M.entry i j) := by
  refine ⟨by simp [exportRows], ?_, ?_, hexDigits_one_le_length _, ?_,
    hexDecode_float_to_hex _⟩
  · simp [exportRows, List.getElem?_map, List.getElem?_range, hi, hj]
  · simp [exportFlat, List.getElem?_map, List.getElem?_range, hj]
  · exact hexDigits_length_le (M.entry i j) 8 (by norm_num)
      (by rw [show (16 : ℕ) ^ 8 = 2 ^ 32 by norm_num]; exact hb)

/-- Witness for C6 (amended) on a 1 × 1 parameter with pattern 0x3f800000. -/
theorem export_entries_hex_witness :
    (exportRows ⟨1, 1, fun _ _ => 0x3f800000⟩).length = 1 ∧
      (exportRows ⟨1, 1, fun _ _ => 0x3f800000⟩)[0]?.bind (fun r => r[0]?) =
        some (float_to_hex 0x3f800000) ∧
      (exportFlat ⟨1, 1, fun _ _ => 0x3f800000⟩)[0]? = some (float_to_hex 0x3f800000) ∧
      1 ≤ (hexDigits 0x3f800000).length ∧ (hexDigits 0x3f800000).length ≤ 8 ∧
      hexDecode (float_to_hex 0x3f800000) = some 0x3f800000 :=
  export_entries_hex ⟨1, 1, fun _ _ => 0x3f800000⟩ 0 0 Nat.one_pos Nat.one_pos
    (by norm_num)

/-! ## Theorems: one-hot encoding (C4) -/

theorem label_dict_eq_none (s : String) (hs : s ∉ unique_labels) : label_dict s = none := by
  unfold label_dict
  rw [List.indexOf?_eq_none_iff]
  intro x hx
  intro h
  exact hs ((eq_of_beq h) ▸ hx)

theorem one_hot_encode_fail (ls : List String) (s : String) (hs : s ∈ ls)
    (hd : label_dict s = none) : one_hot_encode ls = none := by
  induction ls with
  | nil => cases hs
  | cons a t ih =>
    rcases List.mem_cons.mp hs with rfl | hmem
    · simp [one_hot_encode, hd]
    · by_cases ha : label_dict a = none
      · simp [one_hot_encode, ha]
      · rcases Option.ne_none_iff_exists'.mp ha with ⟨i, hi⟩
        simp [one_hot_encode, hi, ih hmem]

/-- C4: a label in the vocabulary Red, Black, Green, White one-hot encodes
to a length-4 row with a single 1 at the label's vocabulary index and 0
elsewhere; a label outside the vocabulary fails the dictionary lookup, and
any dataset containing it encodes to `none` — no partially encoded dataset
is produced. -/
theorem one_hot_encode_spec (s : String) :
    (s ∈ unique_labels →
      ∃ i, label_dict s = some i ∧ unique_labels[i]? = some s ∧
        one_hot_encode [s] = some [oneHotRow i] ∧
        (oneHotRow i).length = 4 ∧ (oneHotRow i)[i]? = some 1 ∧
        (oneHotRow i).count 1 = 1 ∧
        ∀ j, j < 4 → j ≠ i → (oneHotRow i)[j]? = some 0) ∧
    (s ∉ unique_labels → ∀ ls : List String, s ∈ ls → one_hot_encode ls = none) := by
  constructor
  · intro hs
    have hs4 : s = "Red" ∨ s = "Black" ∨ s = "Green" ∨ s = "White" := by
      simpa [unique_labels] using hs
    rcases hs4 with rfl | rfl | rfl | rfl
    · exact ⟨0, by decide, by decide, by decide, by decide, by decide, by decide, by decide⟩
    · exact ⟨1, by decide, by decide, by decide, by decide, by decide, by decide, by decide⟩
    · exact ⟨2, by decide, by decide, by decide, by decide, by decide, by decide, by decide⟩
    · exact ⟨3, by decide, by decide, by decide, by decide, by decide, by decide, by decide⟩
  · intro hs ls hmem
    exact one_hot_encode_fail ls s hmem (label_dict_eq_none s hs)

/-- Witness for C4: White encodes at index 3; a dataset containing the
unknown label Blue fails as a whole. -/
theorem one_hot_encode_spec_witness :
    one_hot_encode ["White"] = some [oneHotRow 3] ∧
      one_hot_encode ["Red", "Blue"] = none := by
  constructor
  · obtain ⟨i, h1, h2, h3, -⟩ := (one_hot_encode_spec "White").1 (by decide)
    have h4 : label_dict "White" = some 3 := by decide
    have hi : i = 3 := Option.some.inj (h1.symm.trans h4)
    subst hi
    exact h3
  · exact (one_hot_encode_spec "Blue").2 (by decide) ["Red", "Blue"] (by decide)

/-! ## Theorems: normalization (C8) -/

/-- C8: normalization divides each raw channel by 2048 exactly and does not
clip: a raw reading above 2048 yields a ratio above 1 rather than an
error. -/
theorem normalize_data_spec (r g b c : ℕ) (hr : 2048 < r) :
    normalize_data [(r : ℚ), g, b, c] =
      [(r : ℚ) / 2048, (g : ℚ) / 2048, (b : ℚ) / 2048, (c : ℚ) / 2048] ∧
      1 < (r : ℚ) / 2048 := by
  refine ⟨by simp [normalize_data], ?_⟩
  rw [one_lt_div (by norm_num : (0 : ℚ) < 2048)]
  exact_mod_cast hr

/-- Witness for C8 at the raw reading 2164 (above 2048). -/
theorem normalize_data_spec_witness :
    normalize_data [((2164 : ℕ) : ℚ), ((1794 : ℕ) : ℚ), ((1742 : ℕ) : ℚ), ((1996 : ℕ) : ℚ)] =
      [((2164 : ℕ) : ℚ) / 2048, ((1794 : ℕ) : ℚ) / 2048, ((1742 : ℕ) : ℚ) / 2048,
        ((1996 : ℕ) : ℚ) / 2048] ∧
      1 < ((2164 : ℕ) : ℚ) / 2048 :=
  normalize_data_spec 2164 1794 1742 1996 (by norm_num)

/-! ## Theorems: parsing (C7, C10) -/

/-- Nonempty all-digit group, the `(\d+)` capture. -/
def IsDigits (l : List Char) : Prop := l ≠ [] ∧ ∀ ch ∈ l, ch.isDigit = true

/-- Nonempty all-word-character group, the `(\w+)` capture. -/
def IsWord (l : List Char) : Prop := l ≠ [] ∧ ∀ ch ∈ l, isWordChar ch = true

/-- A full occurrence of the sample pattern: the five literals with the
five capture groups spliced in. -/
def PatternCore (r g b c w : List Char) : List Char :=
  litRed ++ r ++ litGreen ++ g ++ litBlue ++ b ++ litClear ++ c ++ litColor ++ w

theorem takeWhile_append_of_all (p : Char → Bool) (d rest : List Char)
    (hd : ∀ ch ∈ d, p ch = true) (hr : ∀ x, rest.head? = some x → p x = false) :
    (d ++ rest).takeWhile p = d ∧ (d ++ rest).dropWhile p = rest := by
  induction d with
  | nil =>
    simp only [List.nil_append]
    cases rest with
    | nil => simp
    | cons x xs =>
      have hx := hr x rfl
      simp [List.takeWhile_cons, List.dropWhile_cons, hx]
  | cons a d ih =>
    have ha := hd a (by simp)
    have ih2 := ih (fun ch hch => hd ch (by simp [hch]))
    simp [List.takeWhile_cons, List.dropWhile_cons, ha, ih2.1, ih2.2]

theorem takeDigits_append (d rest : List Char) (hd : IsDigits d)
    (hr : ∀ x, rest.head? = some x → x.isDigit = false) :
    takeDigits (d ++ rest) = some (decimalVal d, rest) := by
  obtain ⟨ht, hdr⟩ := takeWhile_append_of_all Char.isDigit d rest hd.2 hr
  unfold takeDigits
  rw [ht, hdr]
  cases d with
  | nil => exact absurd rfl hd.1
  | cons a t => rfl

theorem takeWord_isSome (w rest : List Char) (hw : IsWord w) :
    (takeWord (w ++ rest)).isSome = true := by
  unfold takeWord
  cases w with
  | nil => exact absurd rfl hw.1
  | cons a t =>
    have ha := hw.2 a (by simp)
    simp [List.takeWhile_cons, ha]

theorem dropLit_self (lit rest : List Char) : dropLit lit (lit ++ rest) = some rest := by
  induction lit with
  | nil => rfl
  | cons c cs ih => simp [dropLit, ih]

theorem head_not_digit_of_comma (L Y : List Char) (hL : L.head? = some ',') :
    ∀ x, (L ++ Y).head? = some x → x.isDigit = false := by
  intro x hx
  cases L with
  | nil => simp at hL
  | cons a t =>
    simp only [List.head?_cons, Option.some.injEq] at hL
    simp only [List.cons_append, List.head?_cons, Option.some.injEq] at hx
    subst hx
    subst hL
    decide

theorem matchSampleAt_core (r g b c w post : List Char)
    (hr : IsDigits r) (hg : IsDigits g) (hb : IsDigits b) (hc : IsDigits c)
    (hw : IsWord w) :
    (matchSampleAt (PatternCore r g b c w ++ post)).isSome = true := by
  have hshape : PatternCore r g b c w ++ post =
      litRed ++ (r ++ (litGreen ++ (g ++ (litBlue ++
        (b ++ (litClear ++ (c ++ (litColor ++ (w ++ post))))))))) := by
    simp [PatternCore, List.append_assoc]
  rw [hshape]
  unfold matchSampleAt
  rw [dropLit_self]
  simp only [Option.bind_eq_bind, Option.some_bind]
  rw [takeDigits_append r _ hr (head_not_digit_of_comma litGreen _ rfl)]
  simp only [Option.bind_eq_bind, Option.some_bind]
  rw [dropLit_self]
  simp only [Option.bind_eq_bind, Option.some_bind]
  rw [takeDigits_append g _ hg (head_not_digit_of_comma litBlue _ rfl)]
  simp only [Option.bind_eq_bind, Option.some_bind]
  rw [dropLit_self]
  simp only [Option.bind_eq_bind, Option.some_bind]
  rw [takeDigits_append b _ hb (head_not_digit_of_comma litClear _ rfl)]
  simp only [Option.bind_eq_bind, Option.some_bind]
  rw [dropLit_self]
  simp only [Option.bind_eq_bind, Option.some_bind]
  rw [takeDigits_append c _ hc (head_not_digit_of_comma litColor _ rfl)]
  simp only [Option.bind_eq_bind, Option.some_bind]
  rw [dropLit_self]
  simp only [Option.some_bind]
  have hts := takeWord_isSome w post hw
  cases htw : takeWord (w ++ post) with
  | none => rw [htw] at hts; simp at hts
  | some pr => simp [htw]


theorem searchSample_found (l : List Char) (k : Nat)
    (h : (matchSampleAt (l.drop k)).isSome = true) :
    ∃ smp k0, searchSample l = some smp ∧ matchSampleAt (l.drop k0) = some smp ∧
      ∀ k' < k0, matchSampleAt (l.drop k') = none := by
  induction l generalizing k with
  | nil =>
    rw [List.drop_nil] at h
    cases hm : matchSampleAt [] with
    | none => rw [hm] at h; simp at h
    | some smp =>
      exact ⟨smp, 0, by simpa [searchSample] using hm, by simpa using hm, by omega⟩
  | cons a t ih =>
    cases hm : matchSampleAt (a :: t) with
    | some smp =>
      refine ⟨smp, 0, ?_, by simpa using hm, by omega⟩
      simp [searchSample, hm]
    | none =>
      cases k with
      | zero => rw [List.drop_zero, hm] at h; simp at h
      | succ k =>
        have h2 : (matchSampleAt (t.drop k)).isSome = true := by
          simpa using h
        obtain ⟨smp, k0, hs, hk0, hmin⟩ := ih k h2
        refine ⟨smp, k0 + 1, ?_, by simpa using hk0, ?_⟩
        · simpa [searchSample, hm] using hs
        · intro k2 hk2
          cases k2 with
          | zero => simpa using hm
          | succ k2 => simpa using hmin k2 (by omega)

/-- C10: `re.search` acceptance is substring acceptance: whenever the line
decomposes as arbitrary text, then a full occurrence of the sample
pattern, then arbitrary text, the line is accepted, and the single
produced sample is the match at the first (leftmost) matching position. -/
theorem search_accepts_substring (l pre post r g b c w : List Char)
    (hl : l = pre ++ (PatternCore r g b c w ++ post))
    (hr : IsDigits r) (hg : IsDigits g) (hb : IsDigits b) (hc : IsDigits c)
    (hw : IsWord w) :
    ∃ smp k0, searchSample l = some smp ∧ matchSampleAt (l.drop k0) = some smp ∧
      ∀ k' < k0, matchSampleAt (l.drop k') = none := by
  have hdrop : l.drop pre.length = PatternCore r g b c w ++ post := by
    rw [hl, List.drop_left]
  have hm : (matchSampleAt (l.drop pre.length)).isSome = true := by
    rw [hdrop]
    exact matchSampleAt_core r g b c w post hr hg hb hc hw
  exact searchSample_found l pre.length hm

/-- A line with arbitrary text around the pattern occurrence. -/
def noisyLine : List Char :=
  "log Red: 12, Green: 3, Blue: 45, Clear: 6, Color: Black end".toList

/-- Witness for C10: a line with text before and after the pattern is
accepted, with the sample taken at the first matching position. -/
theorem search_accepts_substring_witness :
    ∃ smp k0, searchSample noisyLine = some smp ∧
      matchSampleAt (noisyLine.drop k0) = some smp ∧
      ∀ k' < k0, matchSampleAt (noisyLine.drop k') = none :=
  search_accepts_substring noisyLine "log ".toList " end".toList
    "12".toList "3".toList "45".toList "6".toList "Black".toList
    (by decide) ⟨by decide, by decide⟩ ⟨by decide, by decide⟩ ⟨by decide, by decide⟩
    ⟨by decide, by decide⟩ ⟨by decide, by decide⟩

/-- The end-to-end scenario line of the spec. -/
def sampleLine : List Char :=
  "Red: 1794, Green: 2164, Blue: 1742, Clear: 1996, Color: White".toList

/-- C7: `parse_input` produces one sample (feature row and label, in
parallel lists) for exactly the lines `re.search` matches and silently
skips every non-matching line; the concrete line
`Red: 1794, Green: 2164, Blue: 1742, Clear: 1996, Color: White` parses to
raw features [1794, 2164, 1742, 1996] and label White. -/
theorem parse_input_spec (lines : List (List Char)) :
    (parse_input lines).1 = lines.filterMap
        (fun l => (searchSample l).map (fun r => [r.red, r.green, r.blue, r.clear])) ∧
      (parse_input lines).2 = lines.filterMap
        (fun l => (searchSample l).map RawSample.color) ∧
      searchSample sampleLine = some ⟨1794, 2164, 1742, 1996, "White".toList⟩ := by
  refine ⟨?_, ?_, by decide⟩
  · induction lines with
    | nil => rfl
    | cons l ls ih =>
      cases hs : searchSample l
      · simp [parse_input, hs, ih]
      · simp [parse_input, hs, ih]
  · induction lines with
    | nil => rfl
    | cons l ls ih =>
      cases hs : searchSample l
      · simp [parse_input, hs, ih]
      · simp [parse_input, hs, ih]

/-! ## Theorems: parameter ownership and dimensions (C9) -/

/-- The `__init__` of `NeuralNetwork`: weight matrices of the given layer
sizes (entries drawn from the ambient random source, abstracted as the
functions `w1 w2 w3`), zero bias rows, caches not yet assigned. -/
def initNetwork (input_size hidden_size1 hidden_size2 output_size : Nat)
    (w1 w2 w3 : Nat → Nat → ℝ) : NeuralNetwork ℝ where
  input_weights := ⟨input_size, hidden_size1, w1⟩
  hidden_weights1 := ⟨hidden_size1, hidden_size2, w2⟩
  hidden_weights2 := ⟨hidden_size2, output_size, w3⟩
  hidden_bias1 := ⟨1, hidden_size1, fun _ _ => 0⟩
  hidden_bias2 := ⟨1, hidden_size2, fun _ _ => 0⟩
  output_bias := ⟨1, output_size, fun _ _ => 0⟩
  hidden1 := ⟨0, 0, fun _ _ => 0⟩
  hidden2 := ⟨0, 0, fun _ _ => 0⟩
  output := ⟨0, 0, fun _ _ => 0⟩

/-- The six parameter tensors' dimensions. -/
def paramDims {α : Type} (nn : NeuralNetwork α) : List (Nat × Nat) :=
  [(nn.input_weights.rows, nn.input_weights.cols),
   (nn.hidden_weights1.rows, nn.hidden_weights1.cols),
   (nn.hidden_weights2.rows, nn.hidden_weights2.cols),
   (nn.hidden_bias1.rows, nn.hidden_bias1.cols),
   (nn.hidden_bias2.rows, nn.hidden_bias2.cols),
   (nn.output_bias.rows, nn.output_bias.cols)]

/-- C9: `forward` leaves all six parameter fields identical (it writes only
the activation caches); `backward` is the only parameter mutation and keeps
every parameter's dimensions; and the default construction has the
4 → 16 → 8 → 4 shapes, so no operation resizes a parameter array. -/
theorem params_frame (nn : NeuralNetwork ℝ) (X y o : Mat ℝ) (lr : ℝ)
    (w1 w2 w3 : Nat → Nat → ℝ) :
    (forward nn X).1.input_weights = nn.input_weights ∧
      (forward nn X).1.hidden_weights1 = nn.hidden_weights1 ∧
      (forward nn X).1.hidden_weights2 = nn.hidden_weights2 ∧
      (forward nn X).1.hidden_bias1 = nn.hidden_bias1 ∧
      (forward nn X).1.hidden_bias2 = nn.hidden_bias2 ∧
      (forward nn X).1.output_bias = nn.output_bias ∧
      paramDims (forward nn X).1 = paramDims nn ∧
      paramDims (backward nn X y o lr) = paramDims nn ∧
      paramDims (initNetwork 4 16 8 4 w1 w2 w3) =
        [(4, 16), (16, 8), (8, 4), (1, 16), (1, 8), (1, 4)] :=
  ⟨rfl, rfl, rfl, rfl, rfl, rfl, rfl, rfl, rfl⟩

/-! ## Theorems: the backward step (C3) -/

/-- The ReLU derivative sees only the sign, so applying it to the
post-activation (as the source does, on the cached `hidden1`/`hidden2`)
equals applying it to the pre-activation. -/
theorem reluDeriv_relu {α : Type} [LinearOrderedField α] (P : Mat α) :
    reluDerivM (reluM P) = reluDerivM P := by
  unfold reluDerivM reluM
  simp only [Mat.mk.injEq, true_and]
  funext i j
  by_cases h : 0 < P.entry i j
  · simp [h, lt_max_iff]
  · simp [h, lt_max_iff]

/-- The backward update exactly as the claim states it: output error
`target − predicted`, ReLU back-propagation with the derivative of the
*pre-activations* (1 where pre-activation > 0, else 0), and each parameter
updated in place by adding `learning_rate ×` its gradient contribution
(weight gradients as activation-transpose dot error/delta, bias gradients
as column sums) — no momentum, regularization or clipping terms. -/
def backwardSpec {α : Type} [LinearOrderedField α]
    (nn : NeuralNetwork α) (X y o P1 P2 : Mat α) (lr : α) : NeuralNetwork α :=
  let output_error := matSub y o
  let hidden2_delta :=
    hadamard (matMul output_error (transposeM nn.hidden_weights2)) (reluDerivM P2)
  let hidden1_delta :=
    hadamard (matMul (matMul output_error (transposeM nn.hidden_weights2))
      (transposeM nn.hidden_weights1)) (reluDerivM P1)
  { nn with
    hidden_weights2 :=
      matAdd nn.hidden_weights2 (smulM lr (matMul (transposeM nn.hidden2) output_error))
    hidden_weights1 :=
      matAdd nn.hidden_weights1 (smulM lr (matMul (transposeM nn.hidden1) hidden2_delta))
    input_weights :=
      matAdd nn.input_weights (smulM lr (matMul (transposeM X) hidden1_delta))
    output_bias := matAdd nn.output_bias (smulM lr (colSum output_error))
    hidden_bias2 := matAdd nn.hidden_bias2 (smulM lr (colSum hidden2_delta))
    hidden_bias1 := matAdd nn.hidden_bias1 (smulM lr (colSum hidden1_delta)) }

/-- C3: when the caches hold the ReLU images of the pre-activations `P1`,
`P2` (as after any `forward` call), `backward` computes exactly the
claim's update: error `target − predicted`, ReLU derivative of the
pre-activations, and in-place `+ learning_rate × gradient` on every weight
and bias, with no momentum, regularization or clipping. -/
theorem backward_matches_spec {α : Type} [LinearOrderedField α]
    (nn : NeuralNetwork α) (X y o P1 P2 : Mat α) (lr : α)
    (h1 : nn.hidden1 = reluM P1) (h2 : nn.hidden2 = reluM P2) :
    backward nn X y o lr = backwardSpec nn X y o P1 P2 lr := by
  unfold backward backwardSpec
  rw [h1, h2, reluDeriv_relu, reluDeriv_relu]

/-- Constant rational matrix for concrete instances. -/
def matQ (r c : Nat) (x : ℚ) : Mat ℚ := ⟨r, c, fun _ _ => x⟩

def preH1 : Mat ℚ := matQ 1 2 1

def preH2 : Mat ℚ := matQ 1 2 (-1)

/-- A concrete 2 → 2 → 2 → 2 network state whose caches are the ReLU
images of `preH1`, `preH2`. -/
def nnQ : NeuralNetwork ℚ where
  input_weights := matQ 2 2 1
  hidden_weights1 := matQ 2 2 1
  hidden_weights2 := matQ 2 2 1
  hidden_bias1 := matQ 1 2 0
  hidden_bias2 := matQ 1 2 0
  output_bias := matQ 1 2 0
  hidden1 := reluM preH1
  hidden2 := reluM preH2
  output := matQ 1 2 0

/-- Witness for C3 at a concrete rational network state. -/
theorem backward_matches_spec_witness :
    backward nnQ (matQ 1 2 1) (matQ 1 2 1) (matQ 1 2 0) (1 / 1000) =
      backwardSpec nnQ (matQ 1 2 1) (matQ 1 2 1) (matQ 1 2 0) preH1 preH2 (1 / 1000) :=
  backward_matches_spec nnQ (matQ 1 2 1) (matQ 1 2 1) (matQ 1 2 0) preH1 preH2
    (1 / 1000) rfl rfl

/-! ## Theorems: softmax row-stochasticity (C5) -/

theorem softmax_row_stochastic (A : Mat ℝ) (i : Nat) (hc : 0 < A.cols) :
    (∀ j, j < A.cols → 0 ≤ (softmaxM A).entry i j ∧ (softmaxM A).entry i j ≤ 1) ∧
      ∑ j in Finset.range A.cols, (softmaxM A).entry i j = 1 := by
  have hS : 0 < ∑ k in Finset.range A.cols, Real.exp (A.entry i k - rowMax A i) :=
    Finset.sum_pos (fun k _ => Real.exp_pos _)
      (Finset.nonempty_range_iff.mpr (by omega))
  constructor
  · intro j hj
    constructor
    · show 0 ≤ Real.exp (A.entry i j - rowMax A i) / _
      positivity
    · show Real.exp (A.entry i j - rowMax A i) / _ ≤ 1
      rw [div_le_one hS]
      exact Finset.single_le_sum
        (f := fun k => Real.exp (A.entry i k - rowMax A i))
        (fun k _ => (Real.exp_pos _).le) (Finset.mem_range.mpr hj)
  · show ∑ j in Finset.range A.cols,
        Real.exp (A.entry i j - rowMax A i) /
          (∑ k in Finset.range A.cols, Real.exp (A.entry i k - rowMax A i)) = 1
    rw [← Finset.sum_div]
    exact div_self hS.ne'

/-- C5: every row of the matrix returned by `forward` is row-stochastic:
entries lie in [0, 1] and the row sums to 1 (exactly, in the real-number
model; the floating-point code attains this within rounding). -/
theorem forward_row_stochastic (nn : NeuralNetwork ℝ) (X : Mat ℝ) (i : Nat)
    (hc : 0 < (forward nn X).2.cols) :
    (∀ j, j < (forward nn X).2.cols →
        0 ≤ (forward nn X).2.entry i j ∧ (forward nn X).2.entry i j ≤ 1) ∧
      ∑ j in Finset.range (forward nn X).2.cols, (forward nn X).2.entry i j = 1 :=
  softmax_row_stochastic
    (addRow (matMul (reluM (addRow (matMul (reluM (addRow (matMul X nn.input_weights)
      nn.hidden_bias1)) nn.hidden_weights1) nn.hidden_bias2)) nn.hidden_weights2)
      nn.output_bias) i hc

/-- All-zero real matrix for the concrete instance. -/
def matZ (r c : Nat) : Mat ℝ := ⟨r, c, fun _ _ => 0⟩

/-- A default-shaped (4 → 16 → 8 → 4) network with zero parameters. -/
def nnW : NeuralNetwork ℝ where
  input_weights := matZ 4 16
  hidden_weights1 := matZ 16 8
  hidden_weights2 := matZ 8 4
  hidden_bias1 := matZ 1 16
  hidden_bias2 := matZ 1 8
  output_bias := matZ 1 4
  hidden1 := matZ 0 0
  hidden2 := matZ 0 0
  output := matZ 0 0

/-- Witness for C5 on the zero network and a one-row batch. -/
theorem forward_row_stochastic_witness :
    (∀ j, j < (forward nnW (matZ 1 4)).2.cols →
        0 ≤ (forward nnW (matZ 1 4)).2.entry 0 j ∧
          (forward nnW (matZ 1 4)).2.entry 0 j ≤ 1) ∧
      ∑ j in Finset.range (forward nnW (matZ 1 4)).2.cols,
        (forward nnW (matZ 1 4)).2.entry 0 j = 1 :=
  forward_row_stochastic nnW (matZ 1 4) 0 (Nat.succ_pos 3)

/-! ## Theorems: early stopping (C2) -/

theorem runEpochs_lt (v : Nat → ℚ) (p : Nat) :
    ∀ n e b cnt e2, runEpochs v p n e b cnt = some e2 → e2 < e + n := by
  intro n
  induction n with
  | zero => intro e b cnt e2 h; simp [runEpochs] at h
  | succ n ih =>
    intro e b cnt e2 h
    unfold runEpochs at h
    by_cases hi : improvedWrt b (v e) = true
    · rw [if_pos hi] at h
      have := ih (e + 1) (some (v e)) 0 e2 h
      omega
    · rw [if_neg hi] at h
      by_cases hp : p ≤ cnt + 1
      · rw [if_pos hp] at h
        have he := Option.some.inj h
        omega
      · rw [if_neg hp] at h
        have := ih (e + 1) b (cnt + 1) e2 h
        omega

theorem runEpochs_no_improve (v : Nat → ℚ) (p : Nat) :
    ∀ m n e b cnt, cnt + m = p → 1 ≤ m → m ≤ n → (∀ j, e ≤ j → ¬ v j < b) →
      runEpochs v p n e (some b) cnt = some (e + m - 1) := by
  intro m
  induction m with
  | zero => intro n e b cnt hcp h1 hmn hni; exact absurd h1 (by omega)
  | succ m ih =>
    intro n e b cnt hcp h1 hmn hni
    cases n with
    | zero => exact absurd hmn (by omega)
    | succ n =>
      have hi : improvedWrt (some b) (v e) = false := by
        show decide (v e < b) = false
        exact decide_eq_false (hni e le_rfl)
      unfold runEpochs
      rw [if_neg (by simp [hi])]
      cases m with
      | zero =>
        rw [if_pos (by omega)]
        congr 1
      | succ m2 =>
        rw [if_neg (by omega)]
        rw [ih n (e + 1) b (cnt + 1) (by omega) (by omega) (by omega)
          (fun j hj => hni j (by omega))]
        congr 1
        omega

theorem runEpochs_prefix (v : Nat → ℚ) (p : Nat) :
    ∀ t n, t ≤ n → (∀ e, e < t → (stateAt v (e + 1)).2 < p) →
      runEpochs v p n 0 none 0 =
        runEpochs v p (n - t) t (stateAt v t).1 (stateAt v t).2 := by
  intro t
  induction t with
  | zero => intro n _ _; simp [stateAt]
  | succ t ih =>
    intro n htn hcnt
    have hstep := ih n (by omega) (fun e he => hcnt e (by omega))
    have hnt : n - t = (n - (t + 1)) + 1 := by omega
    rw [hstep, hnt]
    simp only [runEpochs]
    by_cases hi : improvedWrt (stateAt v t).1 (v t) = true
    · rw [if_pos hi]
      have hst : stateAt v (t + 1) = (some (v t), 0) := by
        show stateStep v (stateAt v t) t = _
        simp [stateStep, hi]
      rw [hst]
    · rw [if_neg hi]
      have hst : stateAt v (t + 1) = ((stateAt v t).1, (stateAt v t).2 + 1) := by
        show stateStep v (stateAt v t) t = _
        simp [stateStep, hi]
      have hlt : (stateAt v t).2 + 1 < p := by
        have h0 := hcnt t (by omega)
        rw [hst] at h0
        simpa using h0
      rw [if_neg (by omega : ¬ p ≤ (stateAt v t).2 + 1), hst]

/-- C2: if the loop reaches epoch k without the patience counter filling,
the validation loss strictly improves at epoch k and never strictly
improves afterwards, then with patience p and budget E > k + p the loop
breaks exactly at epoch k + p (running k + p + 1 epochs, not more); and
in every run the loop executes at most E epochs, so it stops at the
counter-reaches-p break or at budget exhaustion, whichever comes first. -/
theorem train_early_stopping (v : Nat → ℚ) (E p k : Nat)
    (himp : improvedWrt (stateAt v k).1 (v k) = true)
    (hlater : ∀ j, k < j → ¬ v j < v k)
    (hpre : ∀ e, e ≤ k → (stateAt v (e + 1)).2 < p)
    (hE : k + p < E) :
    stopEpoch v E p = some (k + p) ∧ epochsRun v E p = k + p + 1 ∧
      ∀ (w : Nat → ℚ) (E2 p2 : Nat), epochsRun w E2 p2 ≤ E2 := by
  have hst : stateAt v (k + 1) = (some (v k), 0) := by
    show stateStep v (stateAt v k) k = _
    simp [stateStep, himp]
  have hp1 : 1 ≤ p := by
    have h0 := hpre k le_rfl
    rw [hst] at h0
    simpa using h0
  have hpref := runEpochs_prefix v p (k + 1) E (by omega) (fun e he => hpre e (by omega))
  rw [hst] at hpref
  have hfin := runEpochs_no_improve v p p (E - (k + 1)) (k + 1) (v k) 0
    (by omega) hp1 (by omega) (fun j hj => hlater j (by omega))
  have hstop : stopEpoch v E p = some (k + p) := by
    unfold stopEpoch
    rw [hpref]
    show runEpochs v p (E - (k + 1)) (k + 1) (some (v k)) 0 = some (k + p)
    rw [hfin]
    congr 1
    omega
  refine ⟨hstop, ?_, ?_⟩
  · unfold epochsRun
    rw [hstop]
  · intro w E2 p2
    unfold epochsRun stopEpoch
    cases h : runEpochs w p2 E2 0 none 0 with
    | none => simp
    | some e =>
      have := runEpochs_lt w p2 E2 0 none 0 e h
      simp
      omega

/-- The validation-loss sequence 10, 5, 7, 7, 7, ... : last improvement at
epoch 1. -/
def vSeq : Nat → ℚ := fun j => if j = 0 then 10 else if j = 1 then 5 else 7

/-- Witness for C2: with patience 2 and budget 10 the loop breaks at epoch
1 + 2 = 3, having run 4 epochs. -/
theorem train_early_stopping_witness :
    stopEpoch vSeq 10 2 = some 3 ∧ epochsRun vSeq 10 2 = 4 ∧
      ∀ (w : Nat → ℚ) (E2 p2 : Nat), epochsRun w E2 p2 ≤ E2 :=
  train_early_stopping vSeq 10 2 1 (by decide)
    (by
      intro j hj
      have h0 : ¬ j = 0 := by omega
      have h1 : ¬ j = 1 := by omega
      simp only [vSeq, if_neg h0, if_neg h1, if_pos rfl]
      norm_num)
    (by decide) (by decide)

end Trainer
